import Mathlib

/-!
Verification development for the MCP-Hive repository.

The file embeds, as executable Lean definitions, the parts of the program
that the checked properties are about:

* `ConfigManager` (MCP-Hive-Desktop/config-manager.js): the JSON
  configuration store for MCP servers (`addServer`, `updateServer`,
  `deleteServer`), modelled over association lists that mirror a JS
  object's insertion-ordered keys.
* the `.env` parser inside `startPythonBackend` (MCP-Hive-Desktop main
  process), modelled over `List Char` lines.
* `ServerConfigModal.close` (renderer) and `MCPClient.cleanup`
  (Chapter 2 notes), the closable components; external release calls
  (`__aexit__`, database close) are modelled by resource flags.
* the backend core (conversation store, session registry, provider
  switching, orchestrating loop).  The Python backend is a git
  submodule that is not part of this repository's sources, so those
  definitions are modelled from the design document's own words; each
  such definition says so in its doc comment.
-/

namespace MCPHive

/-! ## Association-list primitives (JS object semantics)

A JS object is a finite map with insertion-ordered keys.  `obj[k]`
is `alookup`, `obj[k] = v` is `aset` (in-place update of an existing
key, append otherwise), `delete obj[k]` is `aerase`. -/

def alookup {ν : Type} (l : List (String × ν)) (k : String) : Option ν :=
  match l with
  | [] => none
  | (k', v) :: rest => if k' = k then some v else alookup rest k

def areplace {ν : Type} (l : List (String × ν)) (k : String) (v : ν) :
    List (String × ν) :=
  match l with
  | [] => []
  | (k', v') :: rest =>
    if k' = k then (k, v) :: areplace rest k v else (k', v') :: areplace rest k v

def aset {ν : Type} (l : List (String × ν)) (k : String) (v : ν) : List (String × ν) :=
  if (alookup l k).isSome then areplace l k v else l ++ [(k, v)]

def aerase {ν : Type} (l : List (String × ν)) (k : String) : List (String × ν) :=
  match l with
  | [] => []
  | (k', v) :: rest => if k' = k then aerase rest k else (k', v) :: aerase rest k

/-! ## ConfigManager (src/MCP-Hive-Desktop/config-manager.js) -/

/-- One server entry of `Mcphive_config.json`: either an SSE record
(`type`/`url`) or a subprocess record (`command`/`args`); fields are
optional exactly as in the JSON. -/
structure ServerSpec where
  stype : Option String
  url : Option String
  command : Option String
  args : Option (List String)
deriving DecidableEq

/-- The configuration file content: the `mcpServers` key may be absent. -/
structure HiveConfig where
  mcpServers : Option (List (String × ServerSpec))
deriving DecidableEq

/-- `ConfigManager.addServer(name, serverConfig)`: reads the config,
creates `mcpServers` if missing, assigns `config.mcpServers[name] =
serverConfig`, writes the config, returns `true`.  The returned pair is
(return value, configuration-file state after the call). -/
def addServer (cfg : HiveConfig) (name : String) (sc : ServerSpec) :
    Bool × HiveConfig :=
  let servers := cfg.mcpServers.getD []
  (true, ⟨some (aset servers name sc)⟩)

/-- `ConfigManager.updateServer(name, serverConfig)`: the source body is
`return this.addServer(name, serverConfig);`. -/
def updateServer (cfg : HiveConfig) (name : String) (sc : ServerSpec) :
    Bool × HiveConfig :=
  addServer cfg name sc

/-- `ConfigManager.deleteServer(name)`: returns `false` without writing
when `mcpServers` is missing or the name is absent; otherwise deletes
the entry, writes, and returns `true`. -/
def deleteServer (cfg : HiveConfig) (name : String) : Bool × HiveConfig :=
  match cfg.mcpServers with
  | none => (false, cfg)
  | some servers =>
    if (alookup servers name).isSome then
      (true, ⟨some (aerase servers name)⟩)
    else
      (false, cfg)

/-! ## The `.env` parser of `startPythonBackend` (MCP-Hive-Desktop main
process)

The JS code splits the file on newlines and, per line:

    if (line.trim().startsWith('#') || line.trim() === '') return;
    const [key, ...valueParts] = line.split('=');
    if (key && valueParts.length > 0) {
      const value = valueParts.join('=');
      envVars[key.trim()] = value.trim();
    }

Lines and keys are modelled as `List Char`; `jsTrim`, `splitEq`,
`joinEq` model `String.prototype.trim`, `split('=')` and `join('=')`. -/

def wsChar (c : Char) : Bool := c.isWhitespace

def ltrim (l : List Char) : List Char :=
  match l with
  | [] => []
  | c :: rest => if wsChar c then ltrim rest else c :: rest

def rtrim (l : List Char) : List Char :=
  match l with
  | [] => []
  | c :: rest =>
    match rtrim rest with
    | [] => if wsChar c then [] else [c]
    | d :: ds => c :: d :: ds

def jsTrim (l : List Char) : List Char := rtrim (ltrim l)

def splitEq (l : List Char) : List (List Char) :=
  match l with
  | [] => [[]]
  | c :: rest =>
    if c = '=' then [] :: splitEq rest
    else
      match splitEq rest with
      | [] => [[c]]
      | s :: ss => (c :: s) :: ss

def joinEq (l : List (List Char)) : List Char :=
  match l with
  | [] => []
  | [s] => s
  | s :: t :: rest => s ++ '=' :: joinEq (t :: rest)

def splitNl (l : List Char) : List (List Char) :=
  match l with
  | [] => [[]]
  | c :: rest =>
    if c = '\n' then [] :: splitNl rest
    else
      match splitNl rest with
      | [] => [[c]]
      | s :: ss => (c :: s) :: ss

/-- The per-line step of the `.env` parser: `none` when the line
contributes no entry, `some (key, value)` when it assigns
`envVars[key] = value`. -/
def parseEnvLine (line : List Char) : Option (List Char × List Char) :=
  if (jsTrim line).head? = some '#' ∨ jsTrim line = [] then none
  else
    match splitEq line with
    | [] => none
    | key :: valueParts =>
      if key ≠ [] ∧ valueParts ≠ [] then
        some (jsTrim key, jsTrim (joinEq valueParts))
      else none

/-- Assignment into the `envVars` object (keys are `List Char`). -/
def envSet (l : List (List Char × List Char)) (k v : List Char) :
    List (List Char × List Char) :=
  match l with
  | [] => [(k, v)]
  | (k', v') :: rest =>
    if k' = k then (k, v) :: rest else (k', v') :: envSet rest k v

/-- The whole-file parse: each line's entry is assigned into the
`envVars` object in order. -/
def parseEnv (content : List Char) : List (List Char × List Char) :=
  (splitNl content).foldl
    (fun m line =>
      match parseEnvLine line with
      | none => m
      | some (k, v) => envSet m k v)
    []

/-! ## ServerConfigModal (renderer/components/server-config-modal.js) -/

/-- The state touched by `ServerConfigModal.close`: the `isOpen` flag and
the container's `style.display`. -/
structure ServerConfigModal where
  isOpen : Bool
  display : String
deriving DecidableEq

/-- `close()`: `if (!this.isOpen) return; this.isOpen = false;
this.modalContainer.style.display = 'none';` -/
def ServerConfigModal.close (s : ServerConfigModal) : ServerConfigModal :=
  if s.isOpen then { isOpen := false, display := "none" } else s

/-! ## MCPClient.cleanup (notes/Chapter2-MCP-Client-SSE.md)

`cleanup` closes the conversation database and, when the SSE session and
stream contexts are set, exits them.  The external release calls
(`conversation_manager.close()`, `__aexit__`) are modelled by their
effect on resource flags; the context fields themselves are not cleared
by the source. -/

structure MCPClient where
  dbOpen : Bool
  sessionCtx : Bool
  streamsCtx : Bool
  sessionReleased : Bool
  streamsReleased : Bool
deriving DecidableEq

def MCPClient.cleanup (s : MCPClient) : MCPClient :=
  { dbOpen := false
    sessionCtx := s.sessionCtx
    streamsCtx := s.streamsCtx
    sessionReleased := s.sessionReleased || s.sessionCtx
    streamsReleased := s.streamsReleased || s.streamsCtx }

/-! ## Conversation Store

Modelled from the spec: `ConversationManager` lives in the Python
backend, a git submodule absent from this repository's sources; only its
SQLite schema and the design document describe it.  A message has an
opaque, unique, monotonically assigned id, an optional parent id, and a
token count; `append` fails with `UnknownParentError` when the parent id
is set but does not exist. -/

structure Msg where
  mid : Nat
  parent : Option Nat
  tokens : Nat
deriving DecidableEq

structure Store where
  msgs : List Msg
deriving DecidableEq

inductive StoreErr
  | unknownParent
deriving DecidableEq

def findMsg (s : Store) (i : Nat) : Option Msg :=
  s.msgs.find? (fun m => m.mid == i)

/-- The next monotonically assigned id: one more than the largest id in
the store (`0` for the empty store). -/
def nextId (s : Store) : Nat :=
  (s.msgs.map (fun m => m.mid + 1)).foldr max 0

/-- Modelled from the spec: `append(conversation_id, parent_id, ...)`
computes the token count, inserts the node, and fails with
`UnknownParentError` if `parent_id` is set but does not exist. -/
def appendMsg (s : Store) (parent : Option Nat) (tokens : Nat) :
    Except StoreErr (Store × Nat) :=
  match parent with
  | none => .ok (⟨s.msgs ++ [⟨nextId s, none, tokens⟩]⟩, nextId s)
  | some p =>
    if (findMsg s p).isSome then
      .ok (⟨s.msgs ++ [⟨nextId s, some p, tokens⟩]⟩, nextId s)
    else
      .error .unknownParent

/-- Well-formedness maintained by the store: ids are pairwise distinct,
and every parent reference points at an existing message with a strictly
smaller id (parents exist before their children and ids are assigned
monotonically). -/
def wfStore (s : Store) : Prop :=
  (s.msgs.map Msg.mid).Nodup ∧
    ∀ m ∈ s.msgs, ∀ p ∈ m.parent,
      p < m.mid ∧ ∃ m' ∈ s.msgs, m'.mid = p

def parentOf (s : Store) (i : Nat) : Option Nat :=
  match findMsg s i with
  | none => none
  | some m => m.parent

/-- The leaf-to-root walk along parent references, with explicit fuel;
fuel `i` always suffices because parent ids strictly decrease. -/
def chainFrom (s : Store) : Nat → Nat → List Nat
  | 0, i => [i]
  | f + 1, i =>
    match parentOf s i with
    | none => [i]
    | some p => i :: chainFrom s f p

def chainOf (s : Store) (i : Nat) : List Nat := chainFrom s i i

/-- The depth of a message: the number of parent steps its walk takes. -/
def depthOf (s : Store) (i : Nat) : Nat := (chainOf s i).length - 1

def sumTokens (l : List Msg) : Nat :=
  match l with
  | [] => 0
  | m :: rest => m.tokens + sumTokens rest

/-- The greedy leaf-backward budget walk: keep taking ancestors (most
recent first) while the cumulative count stays within the budget, and
stop at the first node that no longer fits (nodes are dropped whole). -/
def takeBudget (maxT : Nat) (l : List Msg) (acc : Nat) : List Msg :=
  match l with
  | [] => []
  | m :: rest =>
    if acc + m.tokens ≤ maxT then m :: takeBudget maxT rest (acc + m.tokens)
    else []

/-- Modelled from the spec: `context_for(leaf_id, max_tokens)` walks
parent references from the leaf to the root, truncates from the oldest
end when the cumulative token cost exceeds the budget, and reverses into
root-to-leaf order.  Per the design note, the leaf itself is always
included even when it alone exceeds the budget. -/
def context_for (s : Store) (leafId : Nat) (maxT : Nat) : Option (List Msg) :=
  match findMsg s leafId with
  | none => none
  | some leaf =>
    let ancs := ((chainOf s leafId).tail).filterMap (findMsg s)
    some ((leaf :: takeBudget maxT ancs leaf.tokens).reverse)

/-- The full root-to-leaf path of messages, untruncated. -/
def fullPath (s : Store) (leafId : Nat) : List Msg :=
  ((chainOf s leafId).filterMap (findMsg s)).reverse

/-! ## Session Registry

Modelled from the spec: the registry owns the merged tool catalog
(`tool_name -> owning_session`) and the session set; `dispatch` looks up
the owning session, fails with `UnknownToolError` if absent, and
otherwise delegates to that session's `call_tool`. -/

inductive SessState
  | ready
  | failed
  | closed
deriving DecidableEq

inductive ToolCallErr
  | timeout
  | remoteError
  | transportClosed
deriving DecidableEq

inductive RegistryErr
  | duplicateTool
  | unknownTool
  | toolCall (e : ToolCallErr)
deriving DecidableEq

structure Registry where
  catalog : List (String × String)
  sessions : List (String × SessState)
deriving DecidableEq

/-- Modelled from the spec: `dispatch(tool_name, arguments)` fails with
`UnknownToolError` when the tool is absent from the merged catalog;
otherwise it delegates to the owning session's `call_tool` (supplied
here as a function from tool name and arguments to a result and the
session's state after the call) and returns its result unchanged. -/
def dispatch (r : Registry)
    (callTool : String → String → Except ToolCallErr String × SessState)
    (tool args : String) : Except RegistryErr String × Registry :=
  match alookup r.catalog tool with
  | none => (.error .unknownTool, r)
  | some owner =>
    let (res, st) := callTool tool args
    (res.mapError .toolCall, ⟨r.catalog, aset r.sessions owner st⟩)

/-! ## Provider capability records and switching

Modelled from the spec: each provider has a name and an availability
flag (credentials present or not); exactly one provider is active at a
time; `switch_provider(name)` returns `AuthError` when the credential is
missing and `UnknownProviderError` when the name is unknown, leaving the
active provider unchanged on error. -/

inductive ProviderErr
  | authError
  | unknownProvider
deriving DecidableEq

structure ProviderState where
  providers : List (String × Bool)
  active : String
deriving DecidableEq

def switch_provider (st : ProviderState) (name : String) :
    Except ProviderErr Unit × ProviderState :=
  match alookup st.providers name with
  | none => (.error .unknownProvider, st)
  | some false => (.error .authError, st)
  | some true => (.ok (), ⟨st.providers, name⟩)

def wfProviders (st : ProviderState) : Prop :=
  (st.providers.map Prod.fst).Nodup ∧ (alookup st.providers st.active).isSome

/-- The capability records visible through `list_providers`: provider
name, availability, current-selected flag. -/
def capabilityRecords (st : ProviderState) : List (String × Bool × Bool) :=
  st.providers.map (fun p => (p.1, p.2, p.1 == st.active))

def countActive (st : ProviderState) : Nat :=
  ((capabilityRecords st).filter (fun cr => cr.2.2)).length

/-! ## Orchestrating Client loop

Modelled from the spec: the client appends the user message, computes
context, calls the active adapter; a tool-call reply is dispatched and
its result appended before re-invoking the adapter; a plain-text reply
terminates the loop.  The iteration count is bounded, and exceeding the
bound is a fatal `ToolLoopExceededError`. -/

inductive Reply
  | text (s : String)
  | toolCall (name : String) (args : String)
deriving DecidableEq

inductive Entry
  | user (s : String)
  | modelText (s : String)
  | modelToolCall (name : String) (args : String)
  | toolResult (s : String)
deriving DecidableEq

inductive OrchErr
  | toolLoopExceeded
deriving DecidableEq

/-- One run of the bounded tool-call loop.  `adapter` maps the current
context to a normalized reply; `dispatchFn` produces the tool result
appended to the context.  Returns the final text (or the fatal error),
the number of adapter iterations used, and the final context. -/
def clientLoop (adapter : List Entry → Reply) (dispatchFn : String → String → String) :
    Nat → List Entry → Except OrchErr String × Nat × List Entry
  | 0, hist => (.error .toolLoopExceeded, 0, hist)
  | fuel + 1, hist =>
    match adapter hist with
    | .text s => (.ok s, 1, hist ++ [.modelText s])
    | .toolCall n a =>
      let r := clientLoop adapter dispatchFn fuel
        (hist ++ [.modelToolCall n a, .toolResult (dispatchFn n a)])
      (r.1, r.2.1 + 1, r.2.2)

/-- `submit_query`: append the user message, then drive the bounded
tool-call loop. -/
def submitQuery (adapter : List Entry → Reply) (dispatchFn : String → String → String)
    (bound : Nat) (hist : List Entry) (query : String) :
    Except OrchErr String × Nat × List Entry :=
  clientLoop adapter dispatchFn bound (hist ++ [.user query])

/-- A concrete `call_tool` behavior (the `calc` server of the spec's
scenario), used to instantiate registry statements. -/
def calcCall : String → String → Except ToolCallErr String × SessState :=
  fun _ _ => (.ok "4", .ready)

end MCPHive

namespace MCPHive

theorem alookup_append {ν : Type} (l₁ l₂ : List (String × ν)) (k : String) :
    alookup (l₁ ++ l₂) k =
      match alookup l₁ k with
      | some v => some v
      | none => alookup l₂ k := by
  induction l₁ with
  | nil => simp [alookup]
  | cons p rest ih =>
    obtain ⟨ka, va⟩ := p
    by_cases hk : ka = k
    · simp [alookup, hk]
    · simpa [alookup, hk] using ih

theorem alookup_areplace {ν : Type} (l : List (String × ν)) (k q : String) (v : ν) :
    alookup (areplace l k v) q =
      if q = k then Option.map (fun _ => v) (alookup l k) else alookup l q := by
  induction l with
  | nil =>
    by_cases h : q = k <;> simp [alookup, areplace, h]
  | cons p rest ih =>
    obtain ⟨ka, va⟩ := p
    by_cases hka : ka = k
    · subst hka
      by_cases h : q = ka
      · subst h
        simp [alookup, areplace, ih]
      · have h' : ¬ (ka = q) := fun e => h e.symm
        simp [alookup, areplace, ih, h, h']
    · by_cases h : ka = q
      · subst h
        simp [alookup, areplace, ih, hka]
      · simp [alookup, areplace, ih, hka, h]

theorem alookup_aset_self {ν : Type} (l : List (String × ν)) (k : String) (v : ν) :
    alookup (aset l k v) k = some v := by
  unfold aset
  by_cases h : (alookup l k).isSome
  · obtain ⟨w, hw⟩ := Option.isSome_iff_exists.mp h
    simp [h, alookup_areplace, hw]
  · rw [if_neg h, alookup_append]
    obtain he := Option.not_isSome_iff_eq_none.mp h
    simp [he, alookup]

theorem alookup_aset_other {ν : Type} (l : List (String × ν)) (k q : String) (v : ν)
    (hne : q ≠ k) : alookup (aset l k v) q = alookup l q := by
  unfold aset
  by_cases h : (alookup l k).isSome
  · simp [h, alookup_areplace, hne]
  · rw [if_neg h, alookup_append]
    cases hq : alookup l q with
    | none =>
      have h1 : ¬ (k = q) := fun e => hne e.symm
      simp [alookup, h1]
    | some w => simp

theorem alookup_aerase_self {ν : Type} (l : List (String × ν)) (k : String) :
    alookup (aerase l k) k = none := by
  induction l with
  | nil => rfl
  | cons p rest ih =>
    obtain ⟨ka, va⟩ := p
    by_cases hk : ka = k
    · simpa [aerase, hk] using ih
    · simpa [aerase, alookup, hk] using ih

theorem alookup_aerase_other {ν : Type} (l : List (String × ν)) (k q : String)
    (hne : q ≠ k) : alookup (aerase l k) q = alookup l q := by
  induction l with
  | nil => rfl
  | cons p rest ih =>
    obtain ⟨ka, va⟩ := p
    by_cases hk : ka = k
    · subst hk
      have h' : ¬ (ka = q) := fun e => hne (e ▸ rfl)
      simpa [aerase, alookup, h'] using ih
    · by_cases hk' : ka = q
      · simp [aerase, alookup, hk, hk', hne]
      · simpa [aerase, alookup, hk, hk'] using ih

/-- C1: the claim states that adding a server under an already-present
name is rejected with `DuplicateToolError` and leaves the existing
registration unchanged.  `ConfigManager.addServer` does the opposite: on
the concrete configuration holding `calculator_server` as an SSE server,
re-adding `calculator_server` as a subprocess server returns `true` and
replaces the stored entry with the new, different configuration. -/
theorem claim_C1_counterexample :
    (addServer ⟨some [("calculator_server", ⟨some "sse", some "http://localhost:8081/sse", none, none⟩)]⟩
        "calculator_server" ⟨none, none, some "npx", none⟩).1 = true ∧
    (addServer ⟨some [("calculator_server", ⟨some "sse", some "http://localhost:8081/sse", none, none⟩)]⟩
        "calculator_server" ⟨none, none, some "npx", none⟩).2 =
      ⟨some [("calculator_server", ⟨none, none, some "npx", none⟩)]⟩ ∧
    (⟨none, none, some "npx", none⟩ : ServerSpec) ≠
      ⟨some "sse", some "http://localhost:8081/sse", none, none⟩ := by
  refine ⟨rfl, by decide, by decide⟩

/-- C1 (amended): `addServer` never rejects a name collision at the
configuration layer: for every configuration state, server name and
server configuration it returns `true`, the stored entry under that name
is afterwards the new configuration (an existing entry is silently
overwritten), and entries under every other name are unchanged.  No
`DuplicateToolError` exists in the configuration manager. -/
theorem claim_C1_amended (cfg : HiveConfig) (name : String) (sc : ServerSpec) :
    (addServer cfg name sc).1 = true ∧
    alookup ((addServer cfg name sc).2.mcpServers.getD []) name = some sc ∧
    ∀ other, other ≠ name →
      alookup ((addServer cfg name sc).2.mcpServers.getD []) other =
        alookup (cfg.mcpServers.getD []) other := by
  refine ⟨rfl, ?_, ?_⟩
  · exact alookup_aset_self _ name sc
  · intro other hne
    exact alookup_aset_other _ name other sc hne

/-- C1 witness: the amended statement evaluated on a concrete
configuration. -/
theorem claim_C1_witness :
    (addServer ⟨some [("calculator_server", ⟨some "sse", none, none, none⟩)]⟩
        "calculator_server" ⟨none, none, some "npx", none⟩).1 = true ∧
    alookup ((addServer ⟨some [("calculator_server", ⟨some "sse", none, none, none⟩)]⟩
        "calculator_server" ⟨none, none, some "npx", none⟩).2.mcpServers.getD [])
      "calculator_server" = some ⟨none, none, some "npx", none⟩ ∧
    alookup ((addServer ⟨some [("calculator_server", ⟨some "sse", none, none, none⟩)]⟩
        "calculator_server" ⟨none, none, some "npx", none⟩).2.mcpServers.getD [])
      "filesystem" =
      alookup ((⟨some [("calculator_server", ⟨some "sse", none, none, none⟩)]⟩ :
        HiveConfig).mcpServers.getD []) "filesystem" := by
  obtain h := claim_C1_amended
    ⟨some [("calculator_server", ⟨some "sse", none, none, none⟩)]⟩
    "calculator_server" ⟨none, none, some "npx", none⟩
  exact ⟨h.1, h.2.1, h.2.2 "filesystem" (by decide)⟩

/-- C8: `updateServer` is extensionally equal to `addServer` (its body
is a tail call to it), and in particular updating a name that is absent
from the configuration creates the entry rather than failing. -/
theorem claim_C8_update_eq_add (cfg : HiveConfig) (name : String) (sc : ServerSpec) :
    updateServer cfg name sc = addServer cfg name sc ∧
    (alookup (cfg.mcpServers.getD []) name = none →
      (updateServer cfg name sc).1 = true ∧
      alookup ((updateServer cfg name sc).2.mcpServers.getD []) name = some sc) := by
  refine ⟨rfl, fun _ => ⟨rfl, ?_⟩⟩
  exact alookup_aset_self _ name sc

/-- C8 witness: updating an absent server name on the empty
configuration creates it. -/
theorem claim_C8_witness :
    updateServer ⟨none⟩ "weather_server" ⟨none, none, some "python", none⟩ =
      addServer ⟨none⟩ "weather_server" ⟨none, none, some "python", none⟩ ∧
    (updateServer ⟨none⟩ "weather_server" ⟨none, none, some "python", none⟩).1 = true ∧
    alookup ((updateServer ⟨none⟩ "weather_server"
        ⟨none, none, some "python", none⟩).2.mcpServers.getD [])
      "weather_server" = some ⟨none, none, some "python", none⟩ := by
  obtain h := claim_C8_update_eq_add ⟨none⟩ "weather_server"
    ⟨none, none, some "python", none⟩
  exact ⟨h.1, h.2 rfl⟩

/-- C9: `deleteServer` is atomic on failure: when `mcpServers` is
missing or the name is absent it returns `false` and the configuration
state is exactly the input state (no write happens); when the name is
present it returns `true`, the named entry is removed, and every other
entry is unchanged. -/
theorem claim_C9_delete (cfg : HiveConfig) (name : String) :
    (cfg.mcpServers = none → deleteServer cfg name = (false, cfg)) ∧
    (∀ servers, cfg.mcpServers = some servers →
      alookup servers name = none → deleteServer cfg name = (false, cfg)) ∧
    (∀ servers, cfg.mcpServers = some servers →
      (alookup servers name).isSome →
      (deleteServer cfg name).1 = true ∧
      alookup ((deleteServer cfg name).2.mcpServers.getD []) name = none ∧
      ∀ other, other ≠ name →
        alookup ((deleteServer cfg name).2.mcpServers.getD []) other =
          alookup servers other) := by
  refine ⟨?_, ?_, ?_⟩
  · intro h
    simp [deleteServer, h]
  · intro servers hs habs
    simp [deleteServer, hs, habs]
  · intro servers hs hpres
    refine ⟨?_, ?_, ?_⟩
    · simp [deleteServer, hs, hpres]
    · simp only [deleteServer, hs, hpres, if_true]
      exact alookup_aerase_self servers name
    · intro other hne
      simp only [deleteServer, hs, hpres, if_true]
      exact alookup_aerase_other servers name other hne

/-- C9 witness: deleting an absent name leaves a concrete configuration
untouched, and deleting a present name removes exactly that entry. -/
theorem claim_C9_witness :
    deleteServer ⟨some [("calculator_server", ⟨some "sse", none, none, none⟩)]⟩
      "filesystem" =
      (false, ⟨some [("calculator_server", ⟨some "sse", none, none, none⟩)]⟩) ∧
    (deleteServer ⟨some [("calculator_server", ⟨some "sse", none, none, none⟩),
        ("filesystem", ⟨none, none, some "npx", none⟩)]⟩ "filesystem").1 = true ∧
    alookup ((deleteServer ⟨some [("calculator_server", ⟨some "sse", none, none, none⟩),
        ("filesystem", ⟨none, none, some "npx", none⟩)]⟩
        "filesystem").2.mcpServers.getD []) "filesystem" = none := by
  obtain h1 := (claim_C9_delete
    ⟨some [("calculator_server", ⟨some "sse", none, none, none⟩)]⟩ "filesystem").2.1
    [("calculator_server", ⟨some "sse", none, none, none⟩)] rfl (by decide)
  obtain h2 := (claim_C9_delete
    ⟨some [("calculator_server", ⟨some "sse", none, none, none⟩),
      ("filesystem", ⟨none, none, some "npx", none⟩)]⟩ "filesystem").2.2
    [("calculator_server", ⟨some "sse", none, none, none⟩),
      ("filesystem", ⟨none, none, some "npx", none⟩)] rfl (by decide)
  exact ⟨h1, h2.1, h2.2.1⟩

/-- C5: `close()` is idempotent on every closable component of the
sources.  `ServerConfigModal.close` applied twice equals it applied
once, and on an already-closed modal it changes no state at all;
`MCPClient.cleanup` applied twice equals it applied once (in particular
the second call releases no resource beyond what the first released, and
nothing raises). -/
theorem claim_C5_close_idem :
    ∀ (s : ServerConfigModal) (t : MCPClient) (d : String),
      ServerConfigModal.close (ServerConfigModal.close s) =
        ServerConfigModal.close s ∧
      ServerConfigModal.close ⟨false, d⟩ = ⟨false, d⟩ ∧
      MCPClient.cleanup (MCPClient.cleanup t) = MCPClient.cleanup t := by
  intro s t d
  refine ⟨?_, rfl, ?_⟩
  · obtain ⟨o, disp⟩ := s
    cases o <;> simp [ServerConfigModal.close]
  · obtain ⟨db, sc, stc, sr, str⟩ := t
    simp [MCPClient.cleanup, Bool.or_assoc]

theorem splitEq_ne_nil (l : List Char) : splitEq l ≠ [] := by
  cases l with
  | nil => simp [splitEq]
  | cons c rest =>
    by_cases h : c = '='
    · simp [splitEq, h]
    · simp only [splitEq, if_neg h]
      cases hs : splitEq rest <;> simp

theorem splitEq_no_eq (l : List Char) (h : '=' ∉ l) : splitEq l = [l] := by
  induction l with
  | nil => rfl
  | cons c rest ih =>
    have hc : ¬ (c = '=') := fun e => h (e ▸ List.mem_cons_self c rest)
    have hrest : '=' ∉ rest := fun hm => h (List.mem_cons_of_mem c hm)
    simp [splitEq, hc, ih hrest]

theorem splitEq_append (k v : List Char) (h : '=' ∉ k) :
    splitEq (k ++ '=' :: v) = k :: splitEq v := by
  induction k with
  | nil => simp [splitEq]
  | cons c rest ih =>
    have hc : ¬ (c = '=') := fun e => h (e ▸ List.mem_cons_self c rest)
    have hrest : '=' ∉ rest := fun hm => h (List.mem_cons_of_mem c hm)
    simp only [List.cons_append, splitEq, if_neg hc]
    rw [show rest.append ('=' :: v) = rest ++ '=' :: v from rfl, ih hrest]

theorem joinEq_splitEq (v : List Char) : joinEq (splitEq v) = v := by
  induction v with
  | nil => rfl
  | cons c rest ih =>
    by_cases hc : c = '='
    · subst hc
      simp only [splitEq, if_pos rfl]
      cases hs : splitEq rest with
      | nil => exact absurd hs (splitEq_ne_nil rest)
      | cons s ss =>
        rw [hs] at ih
        simp [joinEq, ih]
    · simp only [splitEq, if_neg hc]
      cases hs : splitEq rest with
      | nil => exact absurd hs (splitEq_ne_nil rest)
      | cons s ss =>
        rw [hs] at ih
        cases ss with
        | nil => simpa [joinEq] using congrArg (c :: ·) ih
        | cons t ts =>
          simp only [joinEq] at ih ⊢
          rw [List.cons_append, ih]

theorem ltrim_head_not_ws (l : List Char) (c : Char) (t : List Char)
    (h : ltrim l = c :: t) : wsChar c = false := by
  induction l with
  | nil => simp [ltrim] at h
  | cons a rest ih =>
    by_cases ha : wsChar a
    · exact ih (by simpa [ltrim, ha] using h)
    · simp only [ltrim, ha, if_false] at h
      obtain ⟨rfl, rfl⟩ := by simpa using h
      simpa using ha

theorem rtrim_cons_not_ws (c : Char) (l : List Char) (hc : wsChar c = false) :
    rtrim (c :: l) = c :: rtrim l := by
  cases h : rtrim l <;> simp [rtrim, h, hc]

theorem ltrim_append_nil (k r : List Char) (h : ltrim k = []) :
    ltrim (k ++ r) = ltrim r := by
  induction k with
  | nil => rfl
  | cons a rest ih =>
    by_cases ha : wsChar a
    · simp only [ltrim, ha, if_true] at h
      simpa [ltrim, ha] using ih h
    · simp [ltrim, ha] at h

theorem ltrim_append_cons (k r : List Char) (c : Char) (t : List Char)
    (h : ltrim k = c :: t) : ltrim (k ++ r) = c :: (t ++ r) := by
  induction k with
  | nil => simp [ltrim] at h
  | cons a rest ih =>
    by_cases ha : wsChar a
    · simp only [ltrim, ha, if_true] at h
      simpa [ltrim, ha] using ih h
    · simp only [ltrim, ha, if_false] at h
      obtain ⟨rfl, rfl⟩ := by simpa using h
      simp [ltrim, ha]

/-- The trimmed key line `k ++ '=' :: v` is nonempty and carries the
head of the trimmed key (or `'='` when the key is all whitespace). -/
theorem jsTrim_keyline (k v : List Char) (hhash : (jsTrim k).head? ≠ some '#') :
    jsTrim (k ++ '=' :: v) ≠ [] ∧
      (jsTrim (k ++ '=' :: v)).head? ≠ some '#' := by
  cases hk : ltrim k with
  | nil =>
    have h1 : ltrim (k ++ '=' :: v) = '=' :: v := by
      rw [ltrim_append_nil k _ hk]
      have : wsChar '=' = false := by decide
      simp [ltrim, this]
    have h2 : jsTrim (k ++ '=' :: v) = '=' :: rtrim v := by
      unfold jsTrim
      rw [h1, rtrim_cons_not_ws _ _ (by decide)]
    refine ⟨by simp [h2], by simp [h2]⟩
  | cons c t =>
    have hcw : wsChar c = false := ltrim_head_not_ws k c t hk
    have h1 : ltrim (k ++ '=' :: v) = c :: (t ++ '=' :: v) :=
      ltrim_append_cons k _ c t hk
    have h2 : jsTrim (k ++ '=' :: v) = c :: rtrim (t ++ '=' :: v) := by
      unfold jsTrim
      rw [h1, rtrim_cons_not_ws _ _ hcw]
    have h3 : (jsTrim k).head? = some c := by
      unfold jsTrim
      rw [hk, rtrim_cons_not_ws _ _ hcw]
      rfl
    refine ⟨by simp [h2], ?_⟩
    rw [h2]
    intro hcon
    apply hhash
    rw [h3]
    simpa using hcon

/-- C10: the per-line behavior of the `.env` parser.  A line that is
blank after trimming, or whose trimmed form starts with `'#'`, produces
no entry; a line containing no `'='` produces no entry; and a line
`K=V` (with `K` the nonempty text before the first `'='`, not beginning
with `'#'`) maps the trimmed key to the trimmed value, where the value is
everything after the first `'='` — later `'='` characters are preserved
intact because the split pieces are rejoined with `'='`. -/
theorem claim_C10_envline : ∀ (line k v : List Char),
    ((jsTrim line = [] ∨ (jsTrim line).head? = some '#') →
      parseEnvLine line = none) ∧
    ('=' ∉ line → parseEnvLine line = none) ∧
    (k ≠ [] → '=' ∉ k → (jsTrim k).head? ≠ some '#' →
      parseEnvLine (k ++ '=' :: v) = some (jsTrim k, jsTrim v)) := by
  intro line k v
  refine ⟨?_, ?_, ?_⟩
  · intro h
    unfold parseEnvLine
    rw [if_pos (h.elim Or.inr Or.inl)]
  · intro h
    unfold parseEnvLine
    by_cases hg : (jsTrim line).head? = some '#' ∨ jsTrim line = []
    · rw [if_pos hg]
    · rw [if_neg hg, splitEq_no_eq line h]
      simp
  · intro hne hkeq hhash
    obtain ⟨hnil, hhead⟩ := jsTrim_keyline k v hhash
    unfold parseEnvLine
    rw [if_neg (by simp [hnil, hhead])]
    rw [splitEq_append k v hkeq]
    simp only [ne_eq, hne, not_false_iff, splitEq_ne_nil v, and_true, if_true]
    rw [joinEq_splitEq]

/-- C10 witness: the three per-line clauses evaluated on concrete
lines: a comment line, a line with no `'='`, and the line
`GROQ_API_KEY= a=b `. -/
theorem claim_C10_witness :
    parseEnvLine ("# Default provider".toList) = none ∧
    parseEnvLine ("NOEQUALS".toList) = none ∧
    parseEnvLine ("GROQ_API_KEY".toList ++ '=' :: " a=b ".toList) =
      some (jsTrim "GROQ_API_KEY".toList, jsTrim " a=b ".toList) := by
  refine ⟨?_, ?_, ?_⟩
  · exact (claim_C10_envline ("# Default provider".toList) [] []).1 (by decide)
  · exact (claim_C10_envline ("NOEQUALS".toList) [] []).2.1 (by decide)
  · exact (claim_C10_envline [] ("GROQ_API_KEY".toList) (" a=b ".toList)).2.2
      (by decide) (by decide) (by decide)

theorem find_mid_of_mem (l : List Msg) (hnd : (l.map Msg.mid).Nodup)
    (m : Msg) (hm : m ∈ l) : l.find? (fun x => x.mid == m.mid) = some m := by
  induction l with
  | nil => cases hm
  | cons a t ih =>
    rcases List.mem_cons.mp hm with rfl | hmt
    · rw [List.find?_cons_of_pos _ (by simp)]
    · have hne : a.mid ≠ m.mid := by
        intro he
        exact (List.nodup_cons.mp hnd).1 (he ▸ List.mem_map_of_mem Msg.mid hmt)
      rw [List.find?_cons_of_neg _ (by simp [hne])]
      exact ih (List.nodup_cons.mp hnd).2 hmt

theorem findMsg_of_mem (s : Store) (hnd : (s.msgs.map Msg.mid).Nodup)
    (m : Msg) (hm : m ∈ s.msgs) : findMsg s m.mid = some m :=
  find_mid_of_mem s.msgs hnd m hm

theorem mid_lt_fold (l : List Msg) (m : Msg) (hm : m ∈ l) :
    m.mid < (l.map (fun x => x.mid + 1)).foldr max 0 := by
  induction l with
  | nil => cases hm
  | cons a t ih =>
    rcases List.mem_cons.mp hm with rfl | hmt
    · simp only [List.map_cons, List.foldr_cons]
      exact lt_of_lt_of_le (Nat.lt_succ_self _) (le_max_left _ _)
    · simp only [List.map_cons, List.foldr_cons]
      exact lt_of_lt_of_le (ih hmt) (le_max_right _ _)

theorem mid_lt_nextId (s : Store) (m : Msg) (hm : m ∈ s.msgs) :
    m.mid < nextId s :=
  mid_lt_fold s.msgs m hm

theorem wf_append_aux (s : Store) (hwf : wfStore s) (par : Option Nat)
    (hpar : ∀ p ∈ par, ∃ mp ∈ s.msgs, mp.mid = p) (tokens : Nat) :
    wfStore ⟨s.msgs ++ [⟨nextId s, par, tokens⟩]⟩ := by
  unfold wfStore
  constructor
  · rw [List.map_append]
    refine List.nodup_append.mpr ⟨hwf.1, List.nodup_singleton _, ?_⟩
    intro a ha hb
    have hb' : a = nextId s := by simpa using hb
    obtain ⟨m, hm, hmid⟩ := List.mem_map.mp ha
    have := mid_lt_nextId s m hm
    omega
  · intro m hm p hp
    rcases List.mem_append.mp hm with hml | hmr
    · obtain ⟨hlt, m', hm', hmid'⟩ := hwf.2 m hml p hp
      exact ⟨hlt, m', List.mem_append.mpr (Or.inl hm'), hmid'⟩
    · have hmeq : m = ⟨nextId s, par, tokens⟩ := by simpa using hmr
      subst hmeq
      simp only at hp
      obtain ⟨mp, hmp, hmpid⟩ := hpar p hp
      refine ⟨?_, mp, List.mem_append.mpr (Or.inl hmp), hmpid⟩
      have := mid_lt_nextId s mp hmp
      simp only
      omega

theorem chainFrom_cons (s : Store) (fuel i : Nat) :
    ∃ t, chainFrom s fuel i = i :: t := by
  cases fuel with
  | zero => exact ⟨[], rfl⟩
  | succ f =>
    cases hp : parentOf s i with
    | none => exact ⟨[], by simp [chainFrom, hp]⟩
    | some p => exact ⟨chainFrom s f p, by simp [chainFrom, hp]⟩

/-- The parent walk, proved by induction on the fuel: from any stored
message id `i` with `i ≤ fuel`, the chain is strictly decreasing and its
last element is the id of a stored root message (one with no parent). -/
theorem chain_spec (s : Store) (hwf : wfStore s) :
    ∀ fuel i, (∃ m ∈ s.msgs, m.mid = i) → i ≤ fuel →
      List.Chain' (fun a b => b < a) (chainFrom s fuel i) ∧
      ∃ r mr, (chainFrom s fuel i).getLast? = some r ∧
        mr ∈ s.msgs ∧ mr.mid = r ∧ mr.parent = none := by
  intro fuel
  induction fuel with
  | zero =>
    intro i hmem hle
    obtain ⟨m, hm, hmid⟩ := hmem
    have hi : i = 0 := Nat.le_zero.mp hle
    subst hi
    have hchain : chainFrom s 0 0 = [0] := rfl
    refine ⟨by rw [hchain]; exact List.chain'_singleton 0, 0, m, by rw [hchain]; rfl,
      hm, hmid, ?_⟩
    cases hpm : m.parent with
    | none => rfl
    | some p =>
      have := (hwf.2 m hm p (by simp [hpm])).1
      omega
  | succ f ih =>
    intro i hmem hle
    obtain ⟨m, hm, hmid⟩ := hmem
    have hfind : findMsg s i = some m := hmid ▸ findMsg_of_mem s hwf.1 m hm
    cases hp : parentOf s i with
    | none =>
      have hchain : chainFrom s (f + 1) i = [i] := by simp [chainFrom, hp]
      have hpar : m.parent = none := by
        unfold parentOf at hp
        rw [hfind] at hp
        exact hp
      exact ⟨by rw [hchain]; exact List.chain'_singleton i,
        i, m, by rw [hchain]; rfl, hm, hmid, hpar⟩
    | some p =>
      have hpar : m.parent = some p := by
        unfold parentOf at hp
        rw [hfind] at hp
        exact hp
      obtain ⟨hlt, m', hm', hmid'⟩ := hwf.2 m hm p (by simp [hpar])
      have hpi : p < i := by omega
      have hpf : p ≤ f := by omega
      obtain ⟨hchain, r, mr, hlast, hmrm, hmrid, hmrpar⟩ :=
        ih p ⟨m', hm', hmid'⟩ hpf
      have hstep : chainFrom s (f + 1) i = i :: chainFrom s f p := by
        simp [chainFrom, hp]
      obtain ⟨t, ht⟩ := chainFrom_cons s f p
      rw [hstep]
      constructor
      · refine List.chain'_cons'.mpr ⟨?_, hchain⟩
        intro b hb
        have hbp : b = p := by
          rw [ht] at hb
          exact (by simpa using hb : p = b).symm
        subst hbp
        exact hpi
      · refine ⟨r, mr, ?_, hmrm, hmrid, hmrpar⟩
        rw [ht]
        rw [ht] at hlast
        rw [List.getLast?_cons_cons]
        exact hlast

/-- C4: for every stored message, the parent walk visits pairwise
distinct ids (no cycles), has length exactly `depth + 1` (so the root is
reached in exactly `depth` steps), and ends at the id of a stored root
message; `append` preserves the well-formedness invariant and only
attaches a new node under an already-existing parent, failing with
`UnknownParentError` otherwise. -/
theorem claim_C4_tree (s : Store) (hwf : wfStore s) :
    (∀ m ∈ s.msgs,
      (chainOf s m.mid).Nodup ∧
      (chainOf s m.mid).length = depthOf s m.mid + 1 ∧
      ∃ r mr, (chainOf s m.mid).getLast? = some r ∧
        mr ∈ s.msgs ∧ mr.mid = r ∧ mr.parent = none) ∧
    (∀ parent tokens out, appendMsg s parent tokens = .ok out → wfStore out.1) ∧
    (∀ p tokens, findMsg s p = none →
      appendMsg s (some p) tokens = .error .unknownParent) := by
  refine ⟨?_, ?_, ?_⟩
  · intro m hm
    obtain ⟨hchain, hroot⟩ :=
      chain_spec s hwf m.mid m.mid ⟨m, hm, rfl⟩ (le_refl _)
    haveI : IsTrans Nat (fun a b => b < a) :=
      ⟨fun _ _ _ hab hbc => lt_trans hbc hab⟩
    have hnodup : (chainOf s m.mid).Nodup :=
      (List.chain'_iff_pairwise.mp hchain).imp (fun hab => ne_of_gt hab)
    refine ⟨hnodup, ?_, hroot⟩
    obtain ⟨t, ht⟩ : ∃ t, chainOf s m.mid = m.mid :: t := chainFrom_cons s m.mid m.mid
    rw [depthOf, ht]
    simp
  · intro parent tokens out h
    cases parent with
    | none =>
      simp only [appendMsg] at h
      have hout : out = (⟨s.msgs ++ [⟨nextId s, none, tokens⟩]⟩, nextId s) := by
        simpa using h.symm
      subst hout
      exact wf_append_aux s hwf none (by simp) tokens
    | some p =>
      simp only [appendMsg] at h
      by_cases hfp : (findMsg s p).isSome
      · rw [if_pos hfp] at h
        have hout : out = (⟨s.msgs ++ [⟨nextId s, some p, tokens⟩]⟩, nextId s) := by
          simpa using h.symm
        subst hout
        refine wf_append_aux s hwf (some p) ?_ tokens
        intro q hq
        have hqp : q = p := (by simpa using hq : p = q).symm
        subst hqp
        obtain ⟨mp, hmp⟩ := Option.isSome_iff_exists.mp hfp
        have hmem := List.mem_of_find?_eq_some hmp
        have hpred := List.find?_some hmp
        have hmid : mp.mid = q := by simpa using hpred
        exact ⟨mp, hmem, hmid⟩
      · rw [if_neg hfp] at h
        cases h
  · intro p tokens h
    simp only [appendMsg]
    rw [if_neg (by simp [h])]

/-- C4 witness: the tree theorem evaluated on a concrete two-message
store (a root and a child). -/
theorem claim_C4_witness :
    (chainOf ⟨[⟨0, none, 2⟩, ⟨1, some 0, 3⟩]⟩ 1).Nodup ∧
    (chainOf ⟨[⟨0, none, 2⟩, ⟨1, some 0, 3⟩]⟩ 1).length =
      depthOf ⟨[⟨0, none, 2⟩, ⟨1, some 0, 3⟩]⟩ 1 + 1 ∧
    appendMsg ⟨[⟨0, none, 2⟩, ⟨1, some 0, 3⟩]⟩ (some 5) 7 =
      .error .unknownParent := by
  obtain h := claim_C4_tree ⟨[⟨0, none, 2⟩, ⟨1, some 0, 3⟩]⟩ ⟨by decide, by decide⟩
  obtain hm := h.1 ⟨1, some 0, 3⟩ (by decide)
  exact ⟨hm.1, hm.2.1, h.2.2 5 7 rfl⟩

theorem takeBudget_sum (maxT : Nat) :
    ∀ (l : List Msg) (acc : Nat), acc ≤ maxT →
      acc + sumTokens (takeBudget maxT l acc) ≤ maxT := by
  intro l
  induction l with
  | nil =>
    intro acc hacc
    simpa [takeBudget, sumTokens] using hacc
  | cons m rest ih =>
    intro acc hacc
    by_cases hfit : acc + m.tokens ≤ maxT
    · rw [takeBudget, if_pos hfit]
      have := ih (acc + m.tokens) hfit
      simp only [sumTokens]
      omega
    · rw [takeBudget, if_neg hfit]
      simpa [sumTokens] using hacc

theorem takeBudget_extends (maxT : Nat) :
    ∀ (l : List Msg) (acc : Nat), ∃ t, takeBudget maxT l acc ++ t = l := by
  intro l
  induction l with
  | nil => exact fun acc => ⟨[], rfl⟩
  | cons m rest ih =>
    intro acc
    by_cases hfit : acc + m.tokens ≤ maxT
    · obtain ⟨t, ht⟩ := ih (acc + m.tokens)
      exact ⟨t, by rw [takeBudget, if_pos hfit, List.cons_append, ht]⟩
    · exact ⟨m :: rest, by rw [takeBudget, if_neg hfit]; rfl⟩

theorem sumTokens_append (l₁ l₂ : List Msg) :
    sumTokens (l₁ ++ l₂) = sumTokens l₁ + sumTokens l₂ := by
  induction l₁ with
  | nil => simp [sumTokens]
  | cons m rest ih =>
    simp only [List.cons_append, sumTokens]
    rw [show rest.append l₂ = rest ++ l₂ from rfl, ih]
    omega

theorem rev_suffix_eq (leaf : Msg) (tb rest a : List Msg) (h : tb ++ rest = a) :
    rest.reverse ++ (leaf :: tb).reverse = (leaf :: a).reverse := by
  subst h
  simp [List.reverse_cons, List.reverse_append, List.append_assoc]

theorem sumTokens_reverse (l : List Msg) : sumTokens l.reverse = sumTokens l := by
  induction l with
  | nil => rfl
  | cons m rest ih =>
    rw [List.reverse_cons, sumTokens_append, ih]
    simp [sumTokens]
    omega

/-- C2: the claim states that `context_for` never exceeds the token
budget and always contains the leaf.  On a store whose single (root and
leaf) message costs 5 tokens, `context_for` with budget 3 returns
exactly that message — the leaf is included (per the design note's
stated fallback) but the cumulative count 5 exceeds the budget 3, so
both halves of the claim cannot hold together. -/
theorem claim_C2_counterexample :
    context_for ⟨[⟨0, none, 5⟩]⟩ 0 3 = some [⟨0, none, 5⟩] ∧
    sumTokens [(⟨0, none, 5⟩ : Msg)] = 5 ∧ ¬ (5 ≤ 3) :=
  ⟨rfl, rfl, by decide⟩

/-- C2 (amended): every sequence returned by `context_for` ends with the
leaf message itself; whenever the leaf alone fits the budget the
cumulative token count stays within the budget (the sole exception,
forced by the design note, is a leaf that alone exceeds it); and the
returned sequence is a suffix of the full root-to-leaf path — exactly
the oldest nodes are dropped, whole. -/
theorem claim_C2_amended (s : Store) (leafId maxT : Nat) (r : List Msg)
    (h : context_for s leafId maxT = some r) :
    ∃ leaf, findMsg s leafId = some leaf ∧
      r.getLast? = some leaf ∧
      (leaf.tokens ≤ maxT → sumTokens r ≤ maxT) ∧
      ∃ dropped, dropped ++ r = fullPath s leafId := by
  unfold context_for at h
  cases hf : findMsg s leafId with
  | none => rw [hf] at h; cases h
  | some leaf =>
    rw [hf] at h
    have hr : (leaf :: takeBudget maxT
        (((chainOf s leafId).tail).filterMap (findMsg s)) leaf.tokens).reverse = r :=
      Option.some.inj h
    refine ⟨leaf, rfl, ?_, ?_, ?_⟩
    · rw [← hr, List.getLast?_reverse]
      rfl
    · intro hfit
      rw [← hr, sumTokens_reverse]
      have := takeBudget_sum maxT
        (((chainOf s leafId).tail).filterMap (findMsg s)) leaf.tokens hfit
      simp only [sumTokens]
      omega
    · obtain ⟨rest, hrest⟩ := takeBudget_extends maxT
        (((chainOf s leafId).tail).filterMap (findMsg s)) leaf.tokens
      refine ⟨rest.reverse, ?_⟩
      obtain ⟨t, ht⟩ : ∃ t, chainOf s leafId = leafId :: t :=
        chainFrom_cons s leafId leafId
      have hpath : fullPath s leafId =
          (leaf :: ((chainOf s leafId).tail).filterMap (findMsg s)).reverse := by
        unfold fullPath
        rw [ht]
        simp only [List.filterMap_cons, hf, List.tail_cons]
      rw [hpath, ← hr]
      exact rev_suffix_eq leaf _ rest _ hrest

/-- C2 witness: the amended statement on a concrete three-message path
with budget 7: the root (2 tokens) is dropped whole, the leaf (4) and
its parent (3) are kept, and the total 7 fits the budget. -/
theorem claim_C2_witness :
    ∃ leaf, findMsg ⟨[⟨0, none, 2⟩, ⟨1, some 0, 3⟩, ⟨2, some 1, 4⟩]⟩ 2 = some leaf ∧
      ([⟨1, some 0, 3⟩, ⟨2, some 1, 4⟩] : List Msg).getLast? = some leaf ∧
      (leaf.tokens ≤ 7 → sumTokens [⟨1, some 0, 3⟩, ⟨2, some 1, 4⟩] ≤ 7) ∧
      ∃ dropped, dropped ++ [⟨1, some 0, 3⟩, ⟨2, some 1, 4⟩] =
        fullPath ⟨[⟨0, none, 2⟩, ⟨1, some 0, 3⟩, ⟨2, some 1, 4⟩]⟩ 2 :=
  claim_C2_amended ⟨[⟨0, none, 2⟩, ⟨1, some 0, 3⟩, ⟨2, some 1, 4⟩]⟩ 2 7
    [⟨1, some 0, 3⟩, ⟨2, some 1, 4⟩] rfl

/-- C6: dispatching a tool name that is absent from the merged catalog
fails with `UnknownToolError`, and the registry — its catalog and every
registered session's state — is returned unchanged. -/
theorem claim_C6_dispatch (r : Registry)
    (callTool : String → String → Except ToolCallErr String × SessState)
    (tool args : String) (h : alookup r.catalog tool = none) :
    dispatch r callTool tool args = (.error .unknownTool, r) := by
  unfold dispatch
  rw [h]

/-- C6 witness: dispatching `nonexistent_tool` on a registry holding the
`calc` session (owning tool `add`) errors and leaves the registry
unchanged. -/
theorem claim_C6_witness :
    dispatch ⟨[("add", "calc")], [("calc", .ready)]⟩ calcCall
      "nonexistent_tool" "" =
      (.error .unknownTool, ⟨[("add", "calc")], [("calc", .ready)]⟩) :=
  claim_C6_dispatch ⟨[("add", "calc")], [("calc", .ready)]⟩ calcCall
    "nonexistent_tool" "" (by decide)

theorem countActive_aux (a : String) :
    ∀ (l : List (String × Bool)), (l.map Prod.fst).Nodup →
      (alookup l a).isSome →
      ((l.map (fun p => (p.1, p.2, p.1 == a))).filter (fun cr => cr.2.2)).length = 1 := by
  intro l
  induction l with
  | nil => intro _ h; simp [alookup] at h
  | cons p rest ih =>
    obtain ⟨k, v⟩ := p
    intro hnd hl
    by_cases hk : k = a
    · subst hk
      have hnotin : k ∉ rest.map Prod.fst := (List.nodup_cons.mp hnd).1
      have hzero :
          ((rest.map (fun p => (p.1, p.2, p.1 == k))).filter
            (fun cr => cr.2.2)).length = 0 := by
        rw [List.length_eq_zero]
        rw [List.filter_eq_nil_iff]
        intro cr hcr
        obtain ⟨q, hq, hqe⟩ := List.mem_map.mp hcr
        subst hqe
        simp only [Bool.not_eq_true, beq_eq_false_iff_ne, ne_eq]
        intro he
        exact hnotin (he ▸ List.mem_map_of_mem Prod.fst hq)
      simp only [List.map_cons, List.filter_cons]
      rw [if_pos (by simp)]
      simp [hzero]
    · have hl' : (alookup rest a).isSome := by
        simpa [alookup, hk] using hl
      simp only [List.map_cons, List.filter_cons]
      rw [if_neg (by simp [hk])]
      exact ih (List.nodup_cons.mp hnd).2 hl'

/-- C7: switching to a provider whose credential is not configured
fails with `AuthError` and leaves the whole provider state — in
particular the active provider — unchanged; and in every well-formed
provider state exactly one capability record carries the
current-selected flag, both before and after any switch. -/
theorem claim_C7_switch (st : ProviderState) (name : String) :
    (alookup st.providers name = some false →
      switch_provider st name = (.error .authError, st)) ∧
    (wfProviders st → countActive st = 1 ∧
      ∀ nm, countActive (switch_provider st nm).2 = 1) := by
  constructor
  · intro h
    unfold switch_provider
    rw [h]
  · intro hwf
    have hone : countActive st = 1 :=
      countActive_aux st.active st.providers hwf.1 hwf.2
    refine ⟨hone, ?_⟩
    intro nm
    unfold switch_provider
    cases hnm : alookup st.providers nm with
    | none => exact hone
    | some cred =>
      cases cred with
      | false => exact hone
      | true =>
        exact countActive_aux nm st.providers hwf.1 (by simp [hnm])

/-- C7 witness: with `gemini` configured without a credential and
`groq` active, switching to `gemini` returns `AuthError`, the state is
unchanged, and exactly one provider stays active. -/
theorem claim_C7_witness :
    switch_provider ⟨[("gemini", false), ("groq", true)], "groq"⟩ "gemini" =
      (.error .authError, ⟨[("gemini", false), ("groq", true)], "groq"⟩) ∧
    countActive ⟨[("gemini", false), ("groq", true)], "groq"⟩ = 1 := by
  obtain h := claim_C7_switch ⟨[("gemini", false), ("groq", true)], "groq"⟩ "gemini"
  exact ⟨h.1 rfl, (h.2 ⟨by decide, by decide⟩).1⟩

theorem clientLoop_bounded (adapter : List Entry → Reply)
    (dispatchFn : String → String → String) :
    ∀ (fuel : Nat) (hist : List Entry),
      (clientLoop adapter dispatchFn fuel hist).2.1 ≤ fuel ∧
      ((∃ s pre, (clientLoop adapter dispatchFn fuel hist).1 = .ok s ∧
          adapter pre = .text s) ∨
        ((clientLoop adapter dispatchFn fuel hist).1 = .error .toolLoopExceeded ∧
          (clientLoop adapter dispatchFn fuel hist).2.1 = fuel)) := by
  intro fuel
  induction fuel with
  | zero =>
    intro hist
    exact ⟨Nat.le_refl 0, Or.inr ⟨rfl, rfl⟩⟩
  | succ f ih =>
    intro hist
    cases hr : adapter hist with
    | text s =>
      refine ⟨?_, Or.inl ⟨s, hist, ?_, hr⟩⟩
      · simp only [clientLoop, hr]
        omega
      · simp only [clientLoop, hr]
    | toolCall n a =>
      obtain ⟨hle, hcase⟩ :=
        ih (hist ++ [.modelToolCall n a, .toolResult (dispatchFn n a)])
      constructor
      · simp only [clientLoop, hr]
        omega
      · rcases hcase with ⟨s, pre, hok, hpre⟩ | ⟨herr, hn⟩
        · exact Or.inl ⟨s, pre, by simp only [clientLoop, hr]; exact hok, hpre⟩
        · refine Or.inr ⟨by simp only [clientLoop, hr]; exact herr, ?_⟩
          simp only [clientLoop, hr]
          omega

/-- C3: for every adapter behavior, dispatch behavior, iteration bound
and query, the orchestrating loop performs at most `bound` adapter
iterations; it either terminates with the plain text some adapter call
returned, or it stops — having used exactly the whole bound — with the
fatal `ToolLoopExceededError`, never continuing past the bound or
silently truncating. -/
theorem claim_C3_loop (adapter : List Entry → Reply)
    (dispatchFn : String → String → String) (bound : Nat)
    (hist : List Entry) (query : String) :
    (submitQuery adapter dispatchFn bound hist query).2.1 ≤ bound ∧
    ((∃ s pre, (submitQuery adapter dispatchFn bound hist query).1 = .ok s ∧
        adapter pre = .text s) ∨
      ((submitQuery adapter dispatchFn bound hist query).1 =
          .error .toolLoopExceeded ∧
        (submitQuery adapter dispatchFn bound hist query).2.1 = bound)) :=
  clientLoop_bounded adapter dispatchFn bound (hist ++ [Entry.user query])

end MCPHive
